import Mathlib

/-!
Verification of the remote file-editing component (`FileManager` in
`src/agent_core/env_components/file_manager.py`).

The component translates read / write / edit / multi-edit / metadata
operations into shell commands sent through a command executor.  We embed it
shallowly: file contents, paths and command outputs are byte strings
(`List Nat`, each entry a byte), the executor is an abstract state-passing
function from structured commands to `(output, exitCode)` results, and a
concrete executor `shellExec` over an association-list filesystem models the
semantics of the exact commands the source issues (`nl`, `tail | head | nl`,
`mkdir -p`, `echo <b64> | base64 -d > f`, `cp f f.bak`, `sed -i`, `rm -f`,
`stat`/`file`).
-/

/-- Byte string of an ASCII string literal (used for the fixed message
fragments and markers appearing in the source). -/
def ascii (s : String) : List Nat :=
  s.data.map Char.toNat

/-- Boolean test that `pre` is a prefix of the second list (bytewise). -/
def leadsWith : List Nat → List Nat → Bool
  | [], _ => true
  | _ :: _, [] => false
  | a :: as, b :: bs => (a == b) && leadsWith as bs

/-- Boolean substring occurrence test, the embedding of Python's
`needle in haystack` on strings. -/
def hasSub (needle : List Nat) : List Nat → Bool
  | [] => leadsWith needle []
  | b :: bs => leadsWith needle (b :: bs) || hasSub needle bs

theorem leadsWith_iff : ∀ n h : List Nat, leadsWith n h = true ↔ n <+: h := by
  intro n
  induction n with
  | nil => intro h; simp [leadsWith]
  | cons a as ih =>
    intro h
    cases h with
    | nil => simp [leadsWith]
    | cons b bs =>
      simp only [leadsWith, Bool.and_eq_true, beq_iff_eq, List.cons_prefix_cons]
      exact and_congr Iff.rfl (ih bs)

theorem hasSub_iff : ∀ n h : List Nat, hasSub n h = true ↔ n <:+: h := by
  intro n h
  induction h with
  | nil =>
    rw [hasSub, leadsWith_iff]
    constructor
    · exact fun hp => hp.isInfix
    · intro hi
      have : n = [] := by simpa using hi.length_le
      simp [this]
  | cons b bs ih =>
    simp only [hasSub, Bool.or_eq_true, leadsWith_iff, ih]
    constructor
    · rintro (hp | hi)
      · exact hp.isInfix
      · exact List.infix_cons hi
    · rintro ⟨s, t, hst⟩
      cases s with
      | nil => exact Or.inl ⟨t, by simpa using hst⟩
      | cons x xs =>
        simp only [List.cons_append] at hst
        injection hst with h1 h2
        exact Or.inr ⟨xs, t, h2⟩

/-- Base64 alphabet: sextet value to ASCII code, as produced by Python's
`base64.b64encode` in `write_file`. -/
def b64char (n : Nat) : Nat :=
  if n < 26 then 65 + n
  else if n < 52 then 97 + (n - 26)
  else if n < 62 then 48 + (n - 52)
  else if n = 62 then 43
  else 47

/-- Inverse of the base64 alphabet, as consumed by the remote `base64 -d`. -/
def b64val (c : Nat) : Option Nat :=
  if 65 ≤ c ∧ c ≤ 90 then some (c - 65)
  else if 97 ≤ c ∧ c ≤ 122 then some (26 + (c - 97))
  else if 48 ≤ c ∧ c ≤ 57 then some (52 + (c - 48))
  else if c = 43 then some 62
  else if c = 47 then some 63
  else none

/-- Base64 encoding of a byte string with `=` padding (`=` is byte 61),
the embedding of `base64.b64encode(content)` in `write_file`. -/
def b64encode : List Nat → List Nat
  | [] => []
  | [a] => [b64char (a / 4), b64char (a % 4 * 16), 61, 61]
  | [a, b] => [b64char (a / 4), b64char (a % 4 * 16 + b / 16), b64char (b % 16 * 4), 61]
  | a :: b :: c :: rest =>
    b64char (a / 4) :: b64char (a % 4 * 16 + b / 16) ::
      b64char (b % 16 * 4 + c / 64) :: b64char (c % 64) :: b64encode rest

/-- Base64 decoding (quartets of alphabet bytes, `=` padding), the embedding
of the remote-side `base64 -d` in the command issued by `write_file`. -/
def b64decode : List Nat → Option (List Nat)
  | [] => some []
  | w :: x :: y :: z :: rest =>
    match b64val w, b64val x with
    | some a, some b =>
      if y = 61 ∧ z = 61 ∧ rest = [] then some [a * 4 + b / 16]
      else
        match b64val y with
        | some c =>
          if z = 61 ∧ rest = [] then some [a * 4 + b / 16, b % 16 * 16 + c / 4]
          else
            match b64val z, b64decode rest with
            | some d, some bs =>
              some ((a * 4 + b / 16) :: (b % 16 * 16 + c / 4) :: (c % 4 * 64 + d) :: bs)
            | _, _ => none
        | none => none
    | _, _ => none
  | _ => none

theorem b64val_b64char : ∀ n, n < 64 → b64val (b64char n) = some n := by
  decide

theorem b64char_ne_61 (n : Nat) : b64char n ≠ 61 := by
  unfold b64char
  split <;> try split <;> try split <;> try split
  all_goals omega

theorem b64decode_b64encode :
    ∀ bs : List Nat, (∀ b ∈ bs, b < 256) → b64decode (b64encode bs) = some bs
  | [], _ => by simp [b64encode, b64decode]
  | [a], h => by
    have ha : a < 256 := h a (by simp)
    have e1 : b64val (b64char (a / 4)) = some (a / 4) := b64val_b64char _ (by omega)
    have e2 : b64val (b64char (a % 4 * 16)) = some (a % 4 * 16) :=
      b64val_b64char _ (by omega)
    simp [b64encode, b64decode, e1, e2]
    omega
  | [a, b], h => by
    have ha : a < 256 := h a (by simp)
    have hb : b < 256 := h b (by simp)
    have e1 : b64val (b64char (a / 4)) = some (a / 4) := b64val_b64char _ (by omega)
    have e2 : b64val (b64char (a % 4 * 16 + b / 16)) = some (a % 4 * 16 + b / 16) :=
      b64val_b64char _ (by omega)
    have e3 : b64val (b64char (b % 16 * 4)) = some (b % 16 * 4) :=
      b64val_b64char _ (by omega)
    simp [b64encode, b64decode, e1, e2, e3, b64char_ne_61]
    omega
  | a :: b :: c :: rest, h => by
    have ha : a < 256 := h a (by simp)
    have hb : b < 256 := h b (by simp)
    have hc : c < 256 := h c (by simp)
    have ih := b64decode_b64encode rest (fun x hx => h x (by simp [hx]))
    have e1 : b64val (b64char (a / 4)) = some (a / 4) := b64val_b64char _ (by omega)
    have e2 : b64val (b64char (a % 4 * 16 + b / 16)) = some (a % 4 * 16 + b / 16) :=
      b64val_b64char _ (by omega)
    have e3 : b64val (b64char (b % 16 * 4 + c / 64)) = some (b % 16 * 4 + c / 64) :=
      b64val_b64char _ (by omega)
    have e4 : b64val (b64char (c % 64)) = some (c % 64) := b64val_b64char _ (by omega)
    simp [b64encode, b64decode, e1, e2, e3, e4, b64char_ne_61, ih]
    omega

/-- First line of a byte string, up to but not including the first newline
(byte 10). -/
def firstLineNoNL : List Nat → List Nat
  | [] => []
  | b :: rest => if b = 10 then [] else b :: firstLineNoNL rest

/-- First line of a byte string including its terminating newline when
present (as `head` passes lines through). -/
def firstLineWithNL : List Nat → List Nat
  | [] => []
  | b :: rest => if b = 10 then [10] else b :: firstLineWithNL rest

/-- Remainder of a byte string after its first newline; empty when no
newline occurs. -/
def dropAfterFirstNL : List Nat → List Nat
  | [] => []
  | b :: rest => if b = 10 then rest else dropAfterFirstNL rest

/-- Fuel-driven splitting of a byte string into its lines (the way `nl`,
`tail` and `head` count lines: a trailing newline does not open a final
empty line).  Fuel keeps the recursion structural so that concrete instances
evaluate inside the kernel. -/
def fileLinesAux : Nat → List Nat → List (List Nat)
  | 0, _ => []
  | _, [] => []
  | f + 1, b :: rest =>
    firstLineNoNL (b :: rest) :: fileLinesAux f (dropAfterFirstNL (b :: rest))

/-- Lines of a byte string. -/
def fileLines (bs : List Nat) : List (List Nat) :=
  fileLinesAux bs.length bs

theorem length_dropAfterFirstNL_le (bs : List Nat) :
    (dropAfterFirstNL bs).length ≤ bs.length := by
  induction bs with
  | nil => simp [dropAfterFirstNL]
  | cons b rest ih =>
    rw [dropAfterFirstNL]
    split
    · simp
    · exact ih.trans (by simp)

theorem length_dropAfterFirstNL_lt (bs : List Nat) (h : bs ≠ []) :
    (dropAfterFirstNL bs).length < bs.length := by
  cases bs with
  | nil => exact absurd rfl h
  | cons b rest =>
    rw [dropAfterFirstNL]
    split
    · simp
    · exact Nat.lt_of_le_of_lt (length_dropAfterFirstNL_le rest) (by simp)

theorem fileLinesAux_fuel :
    ∀ f g bs, bs.length ≤ f → bs.length ≤ g → fileLinesAux f bs = fileLinesAux g bs := by
  intro f
  induction f with
  | zero =>
    intro g bs hf _
    have : bs = [] := List.length_eq_zero.mp (Nat.le_zero.mp hf)
    subst this
    cases g <;> rfl
  | succ f ih =>
    intro g bs hf hg
    cases bs with
    | nil => cases g <;> rfl
    | cons b rest =>
      cases g with
      | zero => simp at hg
      | succ g =>
        rw [fileLinesAux, fileLinesAux]
        have hlt : (dropAfterFirstNL (b :: rest)).length ≤ rest.length := by
          have := length_dropAfterFirstNL_lt (b :: rest) (by simp)
          simpa using Nat.lt_succ_iff.mp (by simpa using this)
        exact congrArg _ (ih g _ (by simp at hf; omega) (by simp at hg; omega))

theorem fileLines_nil : fileLines [] = [] := rfl

theorem fileLines_cons (bs : List Nat) (h : bs ≠ []) :
    fileLines bs = firstLineNoNL bs :: fileLines (dropAfterFirstNL bs) := by
  cases bs with
  | nil => exact absurd rfl h
  | cons b rest =>
    show fileLinesAux (rest.length + 1) (b :: rest) = _
    rw [fileLinesAux]
    refine congrArg _ ?_
    exact fileLinesAux_fuel rest.length (dropAfterFirstNL (b :: rest)).length _
      (by
        have := length_dropAfterFirstNL_lt (b :: rest) (by simp)
        simpa using Nat.lt_succ_iff.mp (by simpa using this))
      le_rfl

/-- Join byte strings with a separator, the embedding of Python's
`sep.join(...)`. -/
def joinWith (sep : List Nat) : List (List Nat) → List Nat
  | [] => []
  | [l] => l
  | l :: ls => l ++ sep ++ joinWith sep ls

theorem joinWith_cons (sep l : List Nat) (ls : List (List Nat)) (h : ls ≠ []) :
    joinWith sep (l :: ls) = l ++ sep ++ joinWith sep ls := by
  cases ls with
  | nil => exact absurd rfl h
  | cons x xs => rfl

theorem not_mem_firstLineNoNL (bs : List Nat) : 10 ∉ firstLineNoNL bs := by
  induction bs with
  | nil => simp [firstLineNoNL]
  | cons b rest ih =>
    rw [firstLineNoNL]
    split
    · simp
    · rename_i hb
      simp only [List.mem_cons, not_or]
      exact ⟨fun h => hb h.symm, ih⟩

theorem firstLineNoNL_no10 (bs : List Nat) (h : 10 ∉ bs) : firstLineNoNL bs = bs := by
  induction bs with
  | nil => rfl
  | cons b rest ih =>
    rw [firstLineNoNL, if_neg (by simp at h; omega)]
    exact congrArg _ (ih (by simp at h; tauto))

theorem dropAfterFirstNL_no10 (bs : List Nat) (h : 10 ∉ bs) : dropAfterFirstNL bs = [] := by
  induction bs with
  | nil => rfl
  | cons b rest ih =>
    rw [dropAfterFirstNL, if_neg (by simp at h; omega)]
    exact ih (by simp at h; tauto)

theorem firstLineWithNL_no10 (bs : List Nat) (h : 10 ∉ bs) : firstLineWithNL bs = bs := by
  induction bs with
  | nil => rfl
  | cons b rest ih =>
    rw [firstLineWithNL, if_neg (by simp at h; omega)]
    exact congrArg _ (ih (by simp at h; tauto))

theorem firstLineNoNL_append (l X : List Nat) (h : 10 ∉ l) :
    firstLineNoNL (l ++ 10 :: X) = l := by
  induction l with
  | nil => simp [firstLineNoNL]
  | cons b rest ih =>
    simp only [List.cons_append]
    rw [firstLineNoNL, if_neg (by simp at h; omega)]
    exact congrArg _ (ih (by simp at h; tauto))

theorem dropAfterFirstNL_append (l X : List Nat) (h : 10 ∉ l) :
    dropAfterFirstNL (l ++ 10 :: X) = X := by
  induction l with
  | nil => simp [dropAfterFirstNL]
  | cons b rest ih =>
    simp only [List.cons_append]
    rw [dropAfterFirstNL, if_neg (by simp at h; omega)]
    exact ih (by simp at h; tauto)

theorem firstLineWithNL_append (l X : List Nat) (h : 10 ∉ l) :
    firstLineWithNL (l ++ 10 :: X) = l ++ [10] := by
  induction l with
  | nil => simp [firstLineWithNL]
  | cons b rest ih =>
    simp only [List.cons_append]
    rw [firstLineWithNL, if_neg (by simp at h; omega)]
    exact congrArg _ (ih (by simp at h; tauto))

theorem split_withNL (bs : List Nat) : firstLineWithNL bs ++ dropAfterFirstNL bs = bs := by
  induction bs with
  | nil => rfl
  | cons b rest ih =>
    rw [firstLineWithNL, dropAfterFirstNL]
    split
    · simp
      omega
    · simpa using ih

theorem split_first (bs : List Nat) :
    bs = firstLineNoNL bs ++ (if (10 : Nat) ∈ bs then 10 :: dropAfterFirstNL bs else []) := by
  by_cases h : (10 : Nat) ∈ bs
  · rw [if_pos h]
    induction bs with
    | nil => simp at h
    | cons b rest ih =>
      rw [firstLineNoNL, dropAfterFirstNL]
      by_cases hb : b = 10
      · subst hb
        simp
      · rw [if_neg hb, if_neg hb]
        simp only [List.cons_append, List.cons.injEq, true_and]
        exact ih (by simp at h; tauto)
  · rw [if_neg h, List.append_nil, firstLineNoNL_no10 bs h]

theorem fileLines_cons_append (l X : List Nat) (h : 10 ∉ l) :
    fileLines (l ++ 10 :: X) = l :: fileLines X := by
  rw [fileLines_cons _ (by simp), firstLineNoNL_append _ _ h, dropAfterFirstNL_append _ _ h]

theorem fileLines_no10 (bs : List Nat) (hne : bs ≠ []) (h : 10 ∉ bs) :
    fileLines bs = [bs] := by
  rw [fileLines_cons _ hne, firstLineNoNL_no10 _ h, dropAfterFirstNL_no10 _ h, fileLines_nil]

/-- Whether a byte string ends with a newline. -/
def endsNL (bs : List Nat) : Bool := bs.getLast? == some 10

theorem fileLines_eq_nil_iff (bs : List Nat) : fileLines bs = [] ↔ bs = [] := by
  constructor
  · intro h
    by_contra hne
    rw [fileLines_cons _ hne] at h
    simp at h
  · intro h
    subst h
    rfl

theorem endsNL_concat_nl (X : List Nat) : endsNL (X ++ [10]) = true := by
  simp [endsNL, List.getLast?_concat]

theorem endsNL_cons_append (l X : List Nat) (hX : X ≠ []) :
    endsNL (l ++ 10 :: X) = endsNL X := by
  have h1 : l ++ 10 :: X = (l ++ [10]) ++ X := by simp
  rw [h1, endsNL, endsNL, List.getLast?_append]
  cases hx : X.getLast? with
  | none => exact absurd (List.getLast?_eq_none_iff.mp hx) hX
  | some a => simp

theorem endsNL_no10 (bs : List Nat) (h : 10 ∉ bs) : endsNL bs = false := by
  rw [endsNL]
  cases hx : bs.getLast? with
  | none => simp
  | some a =>
    have ha : a ∈ bs := List.mem_of_mem_getLast? hx
    have hne : a ≠ 10 := fun he => h (he ▸ ha)
    simp only [beq_eq_false_iff_ne, ne_eq, Option.some.injEq]
    exact hne

theorem join_fileLines :
    ∀ f bs, bs.length ≤ f →
      joinWith [10] (fileLines bs) ++ (if endsNL bs then [10] else []) = bs := by
  intro f
  induction f with
  | zero =>
    intro bs h
    have : bs = [] := List.length_eq_zero.mp (Nat.le_zero.mp h)
    subst this
    simp [fileLines_nil, joinWith, endsNL]
  | succ f ih =>
    intro bs hlen
    by_cases hbs : bs = []
    · subst hbs
      simp [fileLines_nil, joinWith, endsNL]
    by_cases h10 : (10 : Nat) ∈ bs
    · have hdecomp := split_first bs
      rw [if_pos h10] at hdecomp
      have hl10 : 10 ∉ firstLineNoNL bs := not_mem_firstLineNoNL bs
      have hfl : fileLines bs = firstLineNoNL bs :: fileLines (dropAfterFirstNL bs) :=
        fileLines_cons bs hbs
      by_cases hX : dropAfterFirstNL bs = []
      · rw [hX] at hdecomp
        rw [hfl, hX, fileLines_nil]
        have : endsNL bs = true := by
          rw [hdecomp]
          exact endsNL_concat_nl _
        rw [this, if_pos rfl, joinWith]
        exact hdecomp.symm
      · have hXlen : (dropAfterFirstNL bs).length ≤ f := by
          have := length_dropAfterFirstNL_lt bs hbs
          omega
        have ihX := ih _ hXlen
        have hflX : fileLines (dropAfterFirstNL bs) ≠ [] := by
          rw [ne_eq, fileLines_eq_nil_iff]
          exact hX
        have hends : endsNL bs = endsNL (dropAfterFirstNL bs) := by
          conv_lhs => rw [hdecomp]
          exact endsNL_cons_append _ _ hX
        rw [hfl, joinWith_cons _ _ _ hflX, hends]
        conv_rhs => rw [hdecomp]
        simp only [List.append_assoc, List.singleton_append, List.cons_append]
        rw [ihX]
        simp
    · rw [fileLines_no10 bs hbs h10, endsNL_no10 bs h10]
      simp [joinWith]

theorem fileLines_joinWith_concat :
    ∀ ls : List (List Nat), ls ≠ [] → (∀ l ∈ ls, 10 ∉ l) →
      fileLines (joinWith [10] ls ++ [10]) = ls
  | [], h, _ => absurd rfl h
  | [l], _, h10 => by
    have he : joinWith [10] [l] ++ [10] = l ++ 10 :: [] := by simp [joinWith]
    rw [he, fileLines_cons_append _ _ (h10 l (by simp)), fileLines_nil]
  | l :: l2 :: ls, _, h10 => by
    have ih := fileLines_joinWith_concat (l2 :: ls) (by simp)
      (fun x hx => h10 x (List.mem_cons_of_mem _ hx))
    rw [joinWith_cons _ _ _ (by simp)]
    have he : (l ++ [10] ++ joinWith [10] (l2 :: ls)) ++ [10]
        = l ++ 10 :: (joinWith [10] (l2 :: ls) ++ [10]) := by simp
    rw [he, fileLines_cons_append _ _ (h10 l (by simp)), ih]

theorem fileLines_joinWith_unterm :
    ∀ ls : List (List Nat), (∀ l ∈ ls, 10 ∉ l) → ls.getLast? ≠ some [] →
      fileLines (joinWith [10] ls) = ls
  | [], _, _ => rfl
  | [l], h10, hlast => by
    have hl : l ≠ [] := fun he => hlast (by simp [he])
    rw [show joinWith [10] [l] = l from rfl, fileLines_no10 l hl (h10 l (by simp))]
  | l :: l2 :: ls, h10, hlast => by
    have ih := fileLines_joinWith_unterm (l2 :: ls)
      (fun x hx => h10 x (List.mem_cons_of_mem _ hx))
      (by rwa [List.getLast?_cons_cons] at hlast)
    rw [joinWith_cons _ _ _ (by simp)]
    have he : l ++ [10] ++ joinWith [10] (l2 :: ls) = l ++ 10 :: joinWith [10] (l2 :: ls) := by
      simp
    rw [he, fileLines_cons_append _ _ (h10 l (by simp)), ih]

theorem joinWith_ne_nil (ls : List (List Nat)) (hne : ls ≠ [])
    (hlast : ls.getLast? ≠ some []) : joinWith [10] ls ≠ [] := by
  cases ls with
  | nil => exact absurd rfl hne
  | cons l ls =>
    cases ls with
    | nil =>
      have : l ≠ [] := fun he => hlast (by simp [he])
      simpa [joinWith] using this
    | cons l2 ls =>
      rw [joinWith_cons _ _ _ (by simp)]
      simp

theorem endsNL_joinWith :
    ∀ ls : List (List Nat), (∀ l ∈ ls, 10 ∉ l) → ls.getLast? ≠ some [] →
      endsNL (joinWith [10] ls) = false
  | [], _, _ => rfl
  | [l], h10, _ => by
    rw [show joinWith [10] [l] = l from rfl]
    exact endsNL_no10 l (h10 l (by simp))
  | l :: l2 :: ls, h10, hlast => by
    have hlast2 : (l2 :: ls).getLast? ≠ some [] := by
      rwa [List.getLast?_cons_cons] at hlast
    have ih := endsNL_joinWith (l2 :: ls)
      (fun x hx => h10 x (List.mem_cons_of_mem _ hx)) hlast2
    have hJ : joinWith [10] (l2 :: ls) ≠ [] := joinWith_ne_nil _ (by simp) hlast2
    rw [joinWith_cons _ _ _ (by simp)]
    have he : l ++ [10] ++ joinWith [10] (l2 :: ls) = l ++ 10 :: joinWith [10] (l2 :: ls) := by
      simp
    rw [he, endsNL_cons_append _ _ hJ, ih]

/-- Fuel-driven decimal digit expansion. -/
def natDigitsAux : Nat → Nat → List Nat
  | 0, _ => []
  | f + 1, n => if n < 10 then [48 + n] else natDigitsAux f (n / 10) ++ [48 + n % 10]

/-- ASCII decimal digits of a natural number (used for `nl` line numbers and
the 1-based indices in multi-edit messages). -/
def natDigits (n : Nat) : List Nat :=
  natDigitsAux (n + 1) n

theorem natDigitsAux_digits :
    ∀ f n d, d ∈ natDigitsAux f n → 48 ≤ d ∧ d ≤ 57 := by
  intro f
  induction f with
  | zero =>
    intro n d hd
    simp [natDigitsAux] at hd
  | succ f ih =>
    intro n d hd
    rw [natDigitsAux] at hd
    split at hd
    · rename_i hn
      simp at hd
      omega
    · simp only [List.mem_append, List.mem_singleton] at hd
      rcases hd with hd | hd
      · exact ih _ _ hd
      · have : n % 10 < 10 := Nat.mod_lt _ (by omega)
        omega

theorem natDigits_digits (n d : Nat) (hd : d ∈ natDigits n) : 48 ≤ d ∧ d ≤ 57 :=
  natDigitsAux_digits _ _ _ hd

theorem natDigits_ne_nil (n : Nat) : natDigits n ≠ [] := by
  rw [natDigits, natDigitsAux]
  split
  · simp
  · simp

/-- Number part of the default `nl -ba` line prefix: the decimal number
right-aligned in 6 columns. -/
def nlPad (n : Nat) : List Nat :=
  List.replicate (6 - (natDigits n).length) 32 ++ natDigits n

/-- Default `nl -ba` line prefix: padded number followed by a TAB (byte 9). -/
def nlPrefix (n : Nat) : List Nat :=
  nlPad n ++ [9]

theorem nlPad_bytes (n d : Nat) (hd : d ∈ nlPad n) : d = 32 ∨ (48 ≤ d ∧ d ≤ 57) := by
  rw [nlPad] at hd
  rcases List.mem_append.mp hd with hd | hd
  · exact Or.inl (List.eq_of_mem_replicate hd)
  · exact Or.inr (natDigits_digits _ _ hd)

theorem not_mem_nlPad_9 (n : Nat) : 9 ∉ nlPad n := by
  intro h
  rcases nlPad_bytes n 9 h with h | h <;> omega

theorem not_mem_nlPrefix_10 (n : Nat) : 10 ∉ nlPrefix n := by
  intro h
  rcases List.mem_append.mp h with h | h
  · rcases nlPad_bytes n 10 h with h | h <;> omega
  · simp at h

/-- Number a list of lines consecutively starting from `v`. -/
def numberLines (v : Nat) : List (List Nat) → List (List Nat)
  | [] => []
  | l :: ls => (nlPrefix v ++ l) :: numberLines (v + 1) ls

/-- Output of `nl -ba -v v` on a byte string: every line numbered starting
at `v`, the input's trailing-newline status preserved. -/
def nlFrom (v : Nat) (bs : List Nat) : List Nat :=
  joinWith [10] (numberLines v (fileLines bs)) ++ (if endsNL bs then [10] else [])

/-- Drop a line's leading bytes through the first TAB, undoing the `nl`
number prefix. -/
def dropThroughTab : List Nat → List Nat
  | [] => []
  | b :: rest => if b = 9 then rest else dropThroughTab rest

/-- Undo the `nl` numbering format: strip each line's prefix through the
first TAB and reassemble the lines. -/
def stripNumbering (bs : List Nat) : List Nat :=
  joinWith [10] ((fileLines bs).map dropThroughTab) ++ (if endsNL bs then [10] else [])

theorem dropThroughTab_append (pre l : List Nat) (h : 9 ∉ pre) :
    dropThroughTab (pre ++ 9 :: l) = l := by
  induction pre with
  | nil => simp [dropThroughTab]
  | cons b rest ih =>
    simp only [List.cons_append]
    rw [dropThroughTab, if_neg (by simp at h; omega)]
    exact ih (by simp at h; tauto)

theorem numberLines_mem :
    ∀ v ls x, x ∈ numberLines v ls → ∃ k l, l ∈ ls ∧ x = nlPrefix k ++ l := by
  intro v ls
  induction ls generalizing v with
  | nil => intro x hx; simp [numberLines] at hx
  | cons l ls ih =>
    intro x hx
    rw [numberLines] at hx
    rcases List.mem_cons.mp hx with hx | hx
    · exact ⟨v, l, by simp, hx⟩
    · obtain ⟨k, l', hl', he⟩ := ih (v + 1) x hx
      exact ⟨k, l', List.mem_cons_of_mem _ hl', he⟩

theorem numberLines_no10 (v : Nat) (ls : List (List Nat)) (hls : ∀ l ∈ ls, 10 ∉ l) :
    ∀ x ∈ numberLines v ls, 10 ∉ x := by
  intro x hx
  obtain ⟨k, l, hl, he⟩ := numberLines_mem v ls x hx
  subst he
  intro hmem
  rcases List.mem_append.mp hmem with h | h
  · exact not_mem_nlPrefix_10 k h
  · exact hls l hl h

theorem numberLines_getLast?_ne (v : Nat) (ls : List (List Nat)) :
    (numberLines v ls).getLast? ≠ some [] := by
  intro h
  have hmem : ([] : List Nat) ∈ numberLines v ls := List.mem_of_mem_getLast? h
  obtain ⟨k, l, _, he⟩ := numberLines_mem v ls [] hmem
  have : nlPrefix k ++ l ≠ [] := by simp [nlPrefix]
  exact this he.symm

theorem numberLines_map_dropThroughTab (v : Nat) (ls : List (List Nat)) :
    (numberLines v ls).map dropThroughTab = ls := by
  induction ls generalizing v with
  | nil => rfl
  | cons l ls ih =>
    rw [numberLines, List.map_cons, ih]
    refine congrArg (· :: ls) ?_
    rw [show nlPrefix v ++ l = nlPad v ++ 9 :: l by simp [nlPrefix]]
    exact dropThroughTab_append _ _ (not_mem_nlPad_9 v)

theorem fileLines_nlFrom (v : Nat) (bs : List Nat)
    (h10 : ∀ l ∈ fileLines bs, 10 ∉ l) :
    fileLines (nlFrom v bs) = numberLines v (fileLines bs) := by
  rw [nlFrom]
  by_cases hbs : bs = []
  · subst hbs
    rw [show joinWith [10] (numberLines v (fileLines [])) ++
      (if endsNL [] then [10] else []) = [] from rfl, fileLines_nil, numberLines]
  have hne : fileLines bs ≠ [] := fun h => hbs ((fileLines_eq_nil_iff bs).mp h)
  have hnum10 := numberLines_no10 v (fileLines bs) h10
  cases hE : endsNL bs with
  | true =>
    rw [if_pos rfl]
    refine fileLines_joinWith_concat _ ?_ hnum10
    cases hfl : fileLines bs with
    | nil => exact absurd hfl hne
    | cons x xs => simp [numberLines, hfl]
  | false =>
    rw [if_neg (by simp), List.append_nil]
    exact fileLines_joinWith_unterm _ hnum10 (numberLines_getLast?_ne v _)

theorem stripNumbering_nlFrom (v : Nat) (bs : List Nat)
    (h10 : ∀ l ∈ fileLines bs, 10 ∉ l) :
    stripNumbering (nlFrom v bs) = bs := by
  by_cases hbs : bs = []
  · subst hbs
    rfl
  have hne : fileLines bs ≠ [] := fun h => hbs ((fileLines_eq_nil_iff bs).mp h)
  have hfl := fileLines_nlFrom v bs h10
  have hmap := numberLines_map_dropThroughTab v (fileLines bs)
  have hends : endsNL (nlFrom v bs) = endsNL bs := by
    rw [nlFrom]
    cases hE : endsNL bs with
    | true => rw [if_pos rfl]; exact endsNL_concat_nl _
    | false =>
      rw [if_neg (by simp), List.append_nil]
      exact endsNL_joinWith _ (numberLines_no10 v _ h10) (numberLines_getLast?_ne v _)
  rw [stripNumbering, hfl, hmap, hends]
  exact join_fileLines bs.length bs le_rfl

theorem prefix_avoid (m t a b : List Nat) (c : Nat) (he : m ++ t = a ++ c :: b)
    (hc : c ∉ m) : m <+: a := by
  induction m generalizing a with
  | nil => simp
  | cons y m' ih =>
    cases a with
    | nil =>
      simp only [List.cons_append, List.nil_append] at he
      injection he with h1 h2
      exact absurd (h1 ▸ List.mem_cons_self y m') hc
    | cons x a' =>
      simp only [List.cons_append] at he
      injection he with h1 h2
      subst h1
      exact List.cons_prefix_cons.mpr
        ⟨rfl, ih a' h2 (fun hx => hc (List.mem_cons_of_mem _ hx))⟩

theorem sub_split (m a b : List Nat) (c : Nat) (h : m <:+: a ++ c :: b)
    (hc : c ∉ m) : m <:+: a ∨ m <:+: b := by
  obtain ⟨s, t, hst⟩ := h
  induction a generalizing s with
  | nil =>
    cases s with
    | nil =>
      cases m with
      | nil => exact Or.inl List.nil_infix
      | cons y m' =>
        simp only [List.cons_append, List.nil_append] at hst
        injection hst with h1 h2
        exact absurd (h1 ▸ List.mem_cons_self y m') hc
    | cons x s' =>
      simp only [List.cons_append, List.nil_append] at hst
      injection hst with h1 h2
      exact Or.inr ⟨s', t, h2⟩
  | cons x a' ih =>
    cases s with
    | nil =>
      cases m with
      | nil => exact Or.inl List.nil_infix
      | cons y m' =>
        simp only [List.cons_append, List.nil_append] at hst
        injection hst with h1 h2
        subst h1
        have hp : m' <+: a' :=
          prefix_avoid m' t a' b c h2 (fun hx => hc (List.mem_cons_of_mem _ hx))
        exact Or.inl (List.cons_prefix_cons.mpr ⟨rfl, hp⟩).isInfix
    | cons z s' =>
      simp only [List.cons_append] at hst
      injection hst with h1 h2
      rcases ih s' h2 with h | h
      · exact Or.inl (List.infix_cons h)
      · exact Or.inr h

theorem sub_concat (m X : List Nat) (h : m <:+: X ++ [10]) (hm : 10 ∉ m) :
    m <:+: X := by
  rcases sub_split m X [] 10 (by simpa using h) hm with h' | h'
  · exact h'
  · have : m = [] := by simpa using h'.length_le
    simp [this]

theorem subExtendLeft (A J m : List Nat) (h : m <:+: J) : m <:+: A ++ J := by
  obtain ⟨s, t, hst⟩ := h
  refine ⟨A ++ s, t, ?_⟩
  rw [← hst]
  simp [List.append_assoc]

theorem sub_joinWith (m : List Nat) (hm10 : 10 ∉ m) :
    ∀ ls : List (List Nat), m <:+: joinWith [10] ls → m = [] ∨ ∃ l ∈ ls, m <:+: l
  | [], h => by
    left
    have hle := h.length_le
    simp [joinWith] at hle
    exact hle
  | [l], h => Or.inr ⟨l, by simp, h⟩
  | l :: l2 :: ls, h => by
    rw [joinWith_cons _ _ _ (by simp)] at h
    have h' : m <:+: l ++ 10 :: joinWith [10] (l2 :: ls) := by simpa using h
    rcases sub_split m l _ 10 h' hm10 with hcase | hcase
    · exact Or.inr ⟨l, by simp, hcase⟩
    · rcases sub_joinWith m hm10 (l2 :: ls) hcase with hcase' | ⟨l', hl', hsub⟩
      · exact Or.inl hcase'
      · exact Or.inr ⟨l', List.mem_cons_of_mem _ hl', hsub⟩

theorem mem_sub_joinWith (l : List Nat) (ls : List (List Nat)) (hl : l ∈ ls) :
    l <:+: joinWith [10] ls := by
  induction ls with
  | nil => simp at hl
  | cons x xs ih =>
    rcases List.mem_cons.mp hl with h | h
    · subst h
      cases xs with
      | nil => exact List.infix_refl _
      | cons y ys =>
        rw [joinWith_cons _ _ _ (by simp)]
        exact ((l.prefix_append ([10] ++ joinWith [10] (y :: ys))).trans
          (by rw [List.append_assoc])).isInfix
    · have hxs : xs ≠ [] := fun he => by subst he; simp at h
      rw [joinWith_cons _ _ _ hxs]
      exact subExtendLeft (x ++ [10]) _ _ (ih h)

theorem mem_of_sub (m x : List Nat) (h : m <:+: x) : ∀ b ∈ m, b ∈ x := by
  obtain ⟨s, t, hst⟩ := h
  intro b hb
  rw [← hst]
  simp [hb]

theorem marker_not_sub_nlFrom (m bs : List Nat) (v : Nat)
    (hm10 : 10 ∉ m) (hm9 : 9 ∉ m)
    (hwit : ∃ b ∈ m, ¬(b = 32 ∨ (48 ≤ b ∧ b ≤ 57)))
    (hbs : ¬ m <:+: bs) : ¬ m <:+: nlFrom v bs := by
  intro hsub
  obtain ⟨w, hwm, hw⟩ := hwit
  have hmne : m ≠ [] := fun he => by simp [he] at hwm
  rw [nlFrom] at hsub
  have hsub2 : m <:+: joinWith [10] (numberLines v (fileLines bs)) := by
    cases hE : endsNL bs with
    | true =>
      rw [hE, if_pos rfl] at hsub
      exact sub_concat _ _ hsub hm10
    | false =>
      rw [hE] at hsub
      simpa using hsub
  rcases sub_joinWith m hm10 _ hsub2 with he | ⟨x, hx, hsubx⟩
  · exact hmne he
  obtain ⟨k, l, hl, hxe⟩ := numberLines_mem v _ x hx
  subst hxe
  have h9 : m <:+: nlPad k ++ 9 :: l := by
    simpa [nlPrefix] using hsubx
  rcases sub_split m _ _ 9 h9 hm9 with hpad | hline
  · exact hw (nlPad_bytes k w (mem_of_sub m _ hpad w hwm))
  · have hlsub : l <:+: bs := by
      have h1 : l <:+: joinWith [10] (fileLines bs) := mem_sub_joinWith l _ hl
      have h2 : joinWith [10] (fileLines bs) <+: bs := by
        conv_rhs => rw [← join_fileLines bs.length bs le_rfl]
        exact List.prefix_append _ _
      exact h1.trans h2.isInfix
    exact hbs (hline.trans hlsub)

/-- Drop the first `k` lines of a byte string (`tail -n +(k+1)`). -/
def dropLinesBytes : Nat → List Nat → List Nat
  | 0, bs => bs
  | k + 1, bs => dropLinesBytes k (dropAfterFirstNL bs)

/-- Keep the first `k` lines of a byte string (`head -n k`). -/
def takeLinesBytes : Nat → List Nat → List Nat
  | 0, _ => []
  | _, [] => []
  | k + 1, b :: rest =>
    firstLineWithNL (b :: rest) ++ takeLinesBytes k (dropAfterFirstNL (b :: rest))

theorem takeLinesBytes_nil (k : Nat) : takeLinesBytes k [] = [] := by
  cases k <;> rfl

theorem fileLines_dropAfterFirstNL (bs : List Nat) :
    fileLines (dropAfterFirstNL bs) = (fileLines bs).tail := by
  by_cases h : bs = []
  · subst h
    rfl
  · rw [fileLines_cons bs h]
    rfl

theorem fileLines_dropLinesBytes (k : Nat) :
    ∀ bs, fileLines (dropLinesBytes k bs) = (fileLines bs).drop k := by
  induction k with
  | zero => intro bs; rfl
  | succ k ih =>
    intro bs
    rw [dropLinesBytes, ih, fileLines_dropAfterFirstNL, ← List.drop_one, List.drop_drop]
    rw [Nat.add_comm]

theorem fileLines_takeLinesBytes :
    ∀ k bs, fileLines (takeLinesBytes k bs) = (fileLines bs).take k := by
  intro k
  induction k with
  | zero => intro bs; cases bs <;> rfl
  | succ k ih =>
    intro bs
    by_cases hbsne : bs = []
    · subst hbsne
      simp [takeLinesBytes_nil, fileLines_nil]
    have htake : takeLinesBytes (k + 1) bs
        = firstLineWithNL bs ++ takeLinesBytes k (dropAfterFirstNL bs) := by
      cases bs with
      | nil => exact absurd rfl hbsne
      | cons b rest => rfl
    by_cases h10 : (10 : Nat) ∈ bs
    · have hdecomp := split_first bs
      rw [if_pos h10] at hdecomp
      have hl10 := not_mem_firstLineNoNL bs
      have hwith : firstLineWithNL bs = firstLineNoNL bs ++ [10] := by
        conv_lhs => rw [hdecomp]
        exact firstLineWithNL_append _ _ hl10
      have he : (firstLineNoNL bs ++ [10]) ++ takeLinesBytes k (dropAfterFirstNL bs)
          = firstLineNoNL bs ++ 10 :: takeLinesBytes k (dropAfterFirstNL bs) := by simp
      rw [htake, hwith, he, fileLines_cons_append _ _ hl10, ih, fileLines_cons bs hbsne]
      rfl
    · have hlw : firstLineWithNL bs = bs := firstLineWithNL_no10 bs h10
      have hda : dropAfterFirstNL bs = [] := dropAfterFirstNL_no10 bs h10
      rw [htake, hlw, hda, takeLinesBytes_nil, List.append_nil,
        fileLines_no10 bs hbsne h10]
      simp

theorem dropAfterFirstNL_suffix (bs : List Nat) : dropAfterFirstNL bs <:+ bs := by
  induction bs with
  | nil => simp [dropAfterFirstNL]
  | cons b rest ih =>
    rw [dropAfterFirstNL]
    split
    · exact List.suffix_cons b rest
    · exact ih.trans (List.suffix_cons b rest)

theorem dropLinesBytes_suffix (k : Nat) : ∀ bs, dropLinesBytes k bs <:+ bs := by
  induction k with
  | zero => intro bs; exact List.suffix_refl bs
  | succ k ih =>
    intro bs
    rw [dropLinesBytes]
    exact (ih _).trans (dropAfterFirstNL_suffix bs)

theorem takeLinesBytes_isPre : ∀ k bs, takeLinesBytes k bs <+: bs := by
  intro k
  induction k with
  | zero => intro bs; simp [takeLinesBytes]
  | succ k ih =>
    intro bs
    cases bs with
    | nil => simp [takeLinesBytes_nil]
    | cons b rest =>
      rw [show takeLinesBytes (k + 1) (b :: rest)
        = firstLineWithNL (b :: rest) ++ takeLinesBytes k (dropAfterFirstNL (b :: rest))
        from rfl]
      conv_rhs => rw [← split_withNL (b :: rest)]
      obtain ⟨t, ht⟩ := ih (dropAfterFirstNL (b :: rest))
      exact ⟨t, by rw [List.append_assoc, ht]⟩

/-- Replace every occurrence of the byte `t` by the byte string `rep`, the
embedding of Python's `s.replace(c, r)` for a one-character pattern `c`. -/
def replaceByte (t : Nat) (rep : List Nat) : List Nat → List Nat
  | [] => []
  | b :: bs => (if b = t then rep else [b]) ++ replaceByte t rep bs

/-- Escaping applied by `edit_file` to both `old_string` and `new_string`
before embedding them in the `sed` substitution command: backslash, the `/`
delimiter, `.`, `*`, `[`, `]`, `^`, `$` and `&`, in exactly that order, each
replaced by its backslash-escaped form. -/
def escape_for_sed (s : List Nat) : List Nat :=
  let s1 := replaceByte 92 [92, 92] s
  let s2 := replaceByte 47 [92, 47] s1
  let s3 := replaceByte 46 [92, 46] s2
  let s4 := replaceByte 42 [92, 42] s3
  let s5 := replaceByte 91 [92, 91] s4
  let s6 := replaceByte 93 [92, 93] s5
  let s7 := replaceByte 94 [92, 94] s6
  let s8 := replaceByte 36 [92, 36] s7
  replaceByte 38 [92, 38] s8

/-- Pointwise description of the escaping: each of the nine special bytes
becomes backslash followed by the byte, every other byte is kept as is. -/
def escByte (b : Nat) : List Nat :=
  if b = 92 ∨ b = 47 ∨ b = 46 ∨ b = 42 ∨ b = 91 ∨ b = 93 ∨ b = 94 ∨ b = 36 ∨ b = 38
  then [92, b] else [b]

theorem replaceByte_append (t : Nat) (rep x y : List Nat) :
    replaceByte t rep (x ++ y) = replaceByte t rep x ++ replaceByte t rep y := by
  induction x with
  | nil => rfl
  | cons b bs ih => simp [replaceByte, ih]

theorem escape_for_sed_cons (b : Nat) (s : List Nat) :
    escape_for_sed (b :: s) = escByte b ++ escape_for_sed s := by
  by_cases h : b = 92 ∨ b = 47 ∨ b = 46 ∨ b = 42 ∨ b = 91 ∨ b = 93 ∨ b = 94 ∨ b = 36 ∨ b = 38
  · rcases h with h | h | h | h | h | h | h | h | h <;> subst h <;>
      simp [escape_for_sed, replaceByte, replaceByte_append, escByte]
  · push_neg at h
    obtain ⟨h1, h2, h3, h4, h5, h6, h7, h8, h9⟩ := h
    simp [escape_for_sed, replaceByte, replaceByte_append, escByte,
      h1, h2, h3, h4, h5, h6, h7, h8, h9]

theorem escape_for_sed_eq_bind (s : List Nat) :
    escape_for_sed s = s.flatMap escByte := by
  induction s with
  | nil => rfl
  | cons b bs ih => rw [escape_for_sed_cons, ih, List.flatMap_cons]

/-- Interpretation of a byte string as a literal under `sed`'s basic-regex
and replacement syntax: a backslash makes the following byte literal; a bare
metacharacter, delimiter `/` or ampersand has no literal reading (`none`). -/
def breLit : List Nat → Option (List Nat)
  | [] => some []
  | c :: rest =>
    if c = 92 then
      match rest with
      | [] => none
      | d :: rest2 => (breLit rest2).map (d :: ·)
    else if c = 46 ∨ c = 42 ∨ c = 91 ∨ c = 93 ∨ c = 94 ∨ c = 36 ∨ c = 38 ∨ c = 47 then
      none
    else
      (breLit rest).map (c :: ·)

theorem breLit_escape_for_sed : ∀ s : List Nat, breLit (escape_for_sed s) = some s := by
  intro s
  induction s with
  | nil => rfl
  | cons b bs ih =>
    rw [escape_for_sed_cons, escByte]
    split
    · simp only [List.cons_append, List.singleton_append]
      rw [breLit.eq_def]
      simp [ih]
    · rename_i h
      push_neg at h
      obtain ⟨h1, h2, h3, h4, h5, h6, h7, h8, h9⟩ := h
      have hd : ¬(b = 46 ∨ b = 42 ∨ b = 91 ∨ b = 93 ∨ b = 94 ∨ b = 36 ∨ b = 38 ∨ b = 47) := by
        tauto
      simp only [List.singleton_append]
      rw [breLit.eq_def]
      simp [h1, hd, ih]

/-- ASCII whitespace as recognised by Python's `str.split` and `str.strip`
on the byte range relevant to `stat` output. -/
def isWS (b : Nat) : Bool :=
  (b == 9) || (b == 10) || (b == 11) || (b == 12) || (b == 13) || (b == 32)

/-- Drop leading whitespace. -/
def dropWS : List Nat → List Nat
  | [] => []
  | b :: bs => if isWS b then dropWS bs else b :: bs

/-- Longest leading run of non-whitespace bytes. -/
def takeWord : List Nat → List Nat
  | [] => []
  | b :: bs => if isWS b then [] else b :: takeWord bs

/-- Remainder after the leading run of non-whitespace bytes. -/
def dropWord : List Nat → List Nat
  | [] => []
  | b :: bs => if isWS b then b :: bs else dropWord bs

/-- Python's `s.split(maxsplit = m)`: fields split on whitespace runs, with
at most `m` splits; once `m` fields are taken the remainder (leading
whitespace removed) is the final field verbatim. -/
def splitWSMaxAux : Nat → List Nat → List (List Nat)
  | 0, bs =>
    if (dropWS bs).isEmpty then [] else [dropWS bs]
  | m + 1, bs =>
    if (dropWS bs).isEmpty then []
    else takeWord (dropWS bs) :: splitWSMaxAux m (dropWord (dropWS bs))

/-- Embedding of `output.strip().split(maxsplit=4)`-style splitting. -/
def splitWSMax (m : Nat) (bs : List Nat) : List (List Nat) :=
  splitWSMaxAux m bs

/-- Python's `s.strip()`: drop leading and trailing whitespace. -/
def stripWS (bs : List Nat) : List Nat :=
  (dropWS (dropWS bs).reverse).reverse

theorem splitWSMax_length (m : Nat) : ∀ bs, (splitWSMax m bs).length ≤ m + 1 := by
  induction m with
  | zero =>
    intro bs
    rw [splitWSMax, splitWSMaxAux]
    split <;> simp
  | succ m ih =>
    intro bs
    rw [splitWSMax, splitWSMaxAux]
    split
    · simp
    · simpa using ih (dropWord (dropWS bs))

/-- Fuel-driven literal substitution: replace the first (or, when `g` is
set, every) occurrence of the nonempty literal `old` by `new`, scanning from
the left.  Used to give the modelled `sed` command a semantics. -/
def replaceLitAux : Nat → List Nat → List Nat → Bool → List Nat → List Nat
  | 0, _, _, _, hay => hay
  | _, _, _, _, [] => []
  | f + 1, old, new, g, b :: hay =>
    if leadsWith old (b :: hay) && !old.isEmpty then
      if g then new ++ replaceLitAux f old new g (List.drop old.length (b :: hay))
      else new ++ List.drop old.length (b :: hay)
    else b :: replaceLitAux f old new g hay

/-- Literal substitution over a byte string. -/
def replaceLit (old new : List Nat) (g : Bool) (hay : List Nat) : List Nat :=
  replaceLitAux hay.length old new g hay

/-- Result of one executed command: captured stdout+stderr text and exit
code, as returned by `CommandExecutor.execute`. -/
structure CmdResult where
  out : List Nat
  code : Nat
deriving DecidableEq

/-- The commands the file manager issues, abstracted by the parameters that
the source interpolates into the command strings. -/
inductive Cmd
  /-- Command nl -ba FILE 2>&1. -/
  | readFull (path : List Nat)
  /-- Command head -n LIMIT FILE 2>&1 piped through nl -ba. -/
  | readLimitN (path : List Nat) (limit : Nat)
  /-- Command tail -n +OFFSET FILE 2>&1 piped through head -n LIMIT and nl -ba -v OFFSET. -/
  | readRange (path : List Nat) (offset limit : Nat)
  /-- Command mkdir -p DIR. -/
  | mkdir (dir : List Nat)
  /-- Command echo PAYLOAD piped through base64 -d, redirected into FILE. -/
  | writeB64 (path payload : List Nat)
  /-- Command cp FILE FILE.bak 2>&1. -/
  | cpBak (path : List Nat)
  /-- Command sed -i with the escaped substitution, global or first-match. -/
  | sedSub (path old new : List Nat) (global : Bool)
  /-- Command rm -f FILE.bak. -/
  | rmBak (path : List Nat)
  /-- Existence test plus stat (GNU then BSD fallback) plus file -b. -/
  | statCmd (path : List Nat)
deriving DecidableEq

/-- A command executor: a state-passing function from commands to results,
standing for the `CommandExecutor` collaborator. -/
abbrev Exec (σ : Type) := σ → Cmd → CmdResult × σ

/-- Wrap an executor so that the sequence of issued commands is recorded. -/
def traceExec {σ : Type} (exec : Exec σ) : Exec (σ × List Cmd) :=
  fun st c => ((exec st.1 c).1, ((exec st.1 c).2, st.2 ++ [c]))

/-- Remote filesystem model: association list from paths to byte contents
(first binding wins). -/
abbrev FS := List (List Nat × List Nat)

def fsGet : FS → List Nat → Option (List Nat)
  | [], _ => none
  | (p, v) :: fs, q => if p = q then some v else fsGet fs q

def fsSet (fs : FS) (p v : List Nat) : FS :=
  (p, v) :: fs

def fsRemove : FS → List Nat → FS
  | [], _ => []
  | (p, v) :: fs, q => if p = q then fsRemove fs q else (p, v) :: fsRemove fs q

theorem fsGet_fsSet_same (fs : FS) (p v : List Nat) : fsGet (fsSet fs p v) p = some v := by
  simp [fsGet, fsSet]

theorem fsGet_fsSet_ne (fs : FS) (p q v : List Nat) (h : p ≠ q) :
    fsGet (fsSet fs p v) q = fsGet fs q := by
  simp [fsGet, fsSet, h]

/-- Concrete executor over the filesystem model: the semantics of each
issued command in terms of the underlying shell tools. -/
def shellExec : Exec FS := fun fs c =>
  match c with
  | Cmd.readFull p =>
    match fsGet fs p with
    | some bs => (⟨nlFrom 1 bs, 0⟩, fs)
    | none => (⟨ascii "nl: " ++ p ++ ascii ": No such file or directory", 1⟩, fs)
  | Cmd.readLimitN p l =>
    match fsGet fs p with
    | some bs => (⟨nlFrom 1 (takeLinesBytes l bs), 0⟩, fs)
    | none =>
      (⟨nlFrom 1 (ascii "head: cannot open " ++ p ++
        ascii " for reading: No such file or directory"), 0⟩, fs)
  | Cmd.readRange p o l =>
    match fsGet fs p with
    | some bs => (⟨nlFrom o (takeLinesBytes l (dropLinesBytes (o - 1) bs)), 0⟩, fs)
    | none =>
      (⟨nlFrom o (ascii "tail: cannot open " ++ p ++
        ascii " for reading: No such file or directory"), 0⟩, fs)
  | Cmd.mkdir _ => (⟨[], 0⟩, fs)
  | Cmd.writeB64 p payload =>
    match b64decode payload with
    | some bs => (⟨[], 0⟩, fsSet fs p bs)
    | none => (⟨ascii "base64: invalid input", 1⟩, fs)
  | Cmd.cpBak p =>
    match fsGet fs p with
    | some bs => (⟨[], 0⟩, fsSet fs (p ++ ascii ".bak") bs)
    | none => (⟨ascii "cp: cannot stat " ++ p ++ ascii ": No such file or directory", 1⟩, fs)
  | Cmd.sedSub p old new g =>
    match fsGet fs p with
    | none => (⟨ascii "sed: cannot read " ++ p ++ ascii ": No such file or directory", 2⟩, fs)
    | some bs =>
      match breLit old, breLit new with
      | some o, some n => (⟨[], 0⟩, fsSet fs p (replaceLit o n g bs))
      | _, _ => (⟨[], 0⟩, fs)
  | Cmd.rmBak p => (⟨[], 0⟩, fsRemove fs (p ++ ascii ".bak"))
  | Cmd.statCmd p =>
    match fsGet fs p with
    | some bs => (⟨natDigits bs.length ++ ascii " 0 root:root 644 ASCII text", 0⟩, fs)
    | none => (⟨ascii "not_found", 0⟩, fs)

/-- Embedding of `os.path.dirname` (POSIX): everything up to the last slash,
trailing slashes stripped unless the head is all slashes. -/
def dirname (p : List Nat) : List Nat :=
  match p.reverse.findIdx? (fun b => b == 47) with
  | none => []
  | some j =>
    let head := p.take (p.length - j)
    if head.all (fun b => b == 47) then head
    else (head.reverse.dropWhile (fun b => b == 47)).reverse

/-- Command selection of `read_file`: offset and limit both present selects
the range read; only limit, the head read; otherwise the full read. -/
def readCmdOf (file_path : List Nat) (offset limit : Option Nat) : Cmd :=
  match offset, limit with
  | some o, some l => Cmd.readRange file_path o l
  | _, some l => Cmd.readLimitN file_path l
  | _, _ => Cmd.readFull file_path

/-- Embedding of `FileManager.read_file`: run the selected command, classify
the result by the not-found markers first, then by exit code combined with
non-empty output. -/
def read_file {σ : Type} (exec : Exec σ) (s : σ) (file_path : List Nat)
    (offset limit : Option Nat) : (List Nat × Bool) × σ :=
  let r := exec s (readCmdOf file_path offset limit)
  if hasSub (ascii "No such file or directory") r.1.out
      || hasSub (ascii "cannot open") r.1.out then
    ((ascii "File not found: " ++ file_path, true), r.2)
  else if r.1.code != 0 && !r.1.out.isEmpty then
    ((ascii "Error reading file: " ++ r.1.out, true), r.2)
  else
    ((r.1.out, false), r.2)

/-- Embedding of `FileManager.write_file`: create the parent directory when
there is one (result unchecked), then write the base64-encoded content
through the remote decode, and classify by the write's exit code alone. -/
def write_file {σ : Type} (exec : Exec σ) (s : σ) (file_path content : List Nat) :
    (List Nat × Bool) × σ :=
  let dir_path := dirname file_path
  let s1 := if dir_path.isEmpty then s else (exec s (Cmd.mkdir dir_path)).2
  let encoded_content := b64encode content
  let r := exec s1 (Cmd.writeB64 file_path encoded_content)
  if r.1.code != 0 then ((ascii "Error writing file: " ++ r.1.out, true), r.2)
  else ((ascii "Successfully wrote to " ++ file_path, false), r.2)

/-- Embedding of `FileManager.edit_file`: probe-and-backup copy, abort with
not-found on marker or nonzero exit, escape both strings, back up again,
substitute, remove the backup, and classify by the substitution's exit
code. -/
def edit_file {σ : Type} (exec : Exec σ) (s : σ)
    (file_path old_string new_string : List Nat) (replace_all : Bool) :
    (List Nat × Bool) × σ :=
  let r := exec s (Cmd.cpBak file_path)
  if hasSub (ascii "No such file or directory") r.1.out || r.1.code != 0 then
    ((ascii "File not found: " ++ file_path, true), r.2)
  else
    let escaped_old := escape_for_sed old_string
    let escaped_new := escape_for_sed new_string
    let s2 := (exec r.2 (Cmd.cpBak file_path)).2
    let r2 := exec s2 (Cmd.sedSub file_path escaped_old escaped_new replace_all)
    let s4 := (exec r2.2 (Cmd.rmBak file_path)).2
    if r2.1.code != 0 then ((ascii "Error editing file: " ++ r2.1.out, true), s4)
    else
      ((ascii "Successfully replaced " ++
        (if replace_all then ascii "all occurrences" else ascii "first occurrence") ++
        ascii " in " ++ file_path, false), s4)

/-- Loop of `FileManager.multi_edit_file`: 0-based index, accumulated result
lines, remaining edits. -/
def multiEditGo {σ : Type} (exec : Exec σ) (file_path : List Nat) :
    σ → Nat → List (List Nat) → List (List Nat × List Nat × Bool) → (List Nat × Bool) × σ
  | s, _, results, [] => ((joinWith [10] results, false), s)
  | s, i, results, (old_string, new_string, replace_all) :: rest =>
    let r := edit_file exec s file_path old_string new_string replace_all
    if r.1.2 && !(hasSub (ascii "No matches found") r.1.1) then
      ((ascii "Error on edit " ++ natDigits (i + 1) ++ ascii ": " ++ r.1.1, true), r.2)
    else
      multiEditGo exec file_path r.2 (i + 1)
        (results ++ [ascii "Edit " ++ natDigits (i + 1) ++ ascii ": " ++ r.1.1]) rest

/-- Embedding of `FileManager.multi_edit_file`. -/
def multi_edit_file {σ : Type} (exec : Exec σ) (s : σ) (file_path : List Nat)
    (edits : List (List Nat × List Nat × Bool)) : (List Nat × Bool) × σ :=
  multiEditGo exec file_path s 0 [] edits

/-- Loop of `FileManager.get_metadata` over the already-truncated path list:
one stat command per path, output classified into a report block. -/
def metaGo {σ : Type} (exec : Exec σ) : σ → List (List Nat) → List (List Nat) × σ
  | s, [] => ([], s)
  | s, p :: ps =>
    let r := exec s (Cmd.statCmd p)
    let block :=
      if hasSub (ascii "not_found") r.1.out then p ++ ascii ": Not found"
      else
        let parts := splitWSMax 4 (stripWS r.1.out)
        if 5 ≤ parts.length then
          p ++ ascii ":\n  Size: " ++ parts.getD 0 [] ++ ascii " bytes\n  Type: " ++
            joinWith [32] (parts.drop 4) ++ ascii "\n  Owner: " ++ parts.getD 2 [] ++
            ascii "\n  Permissions: " ++ parts.getD 3 []
        else p ++ ascii ": Unable to get metadata"
    let rest := metaGo exec r.2 ps
    (block :: rest.1, rest.2)

/-- Embedding of `FileManager.get_metadata`: process at most the first ten
paths and join the per-path blocks with blank lines; never an error. -/
def get_metadata {σ : Type} (exec : Exec σ) (s : σ) (file_paths : List (List Nat)) :
    (List Nat × Bool) × σ :=
  let r := metaGo exec s (file_paths.take 10)
  ((joinWith [10, 10] r.1, false), r.2)

/-- Sequence of per-edit results of `edit_file` run in order, each edit
against the state the previous one left. -/
def editSeq {σ : Type} (exec : Exec σ) (file_path : List Nat) :
    σ → List (List Nat × List Nat × Bool) → List (List Nat × Bool)
  | _, [] => []
  | s, (o, n, ra) :: rest =>
    let r := edit_file exec s file_path o n ra
    r.1 :: editSeq exec file_path r.2 rest

/-- An edit result is fatal when it is flagged as an error and its message
does not contain the "No matches found" marker. -/
def fatalEdit (r : List Nat × Bool) : Bool :=
  r.2 && !(hasSub (ascii "No matches found") r.1)

/-- The per-edit result lines as labelled by `multi_edit_file`, starting at
0-based index `i`. -/
def labelEdits : Nat → List (List Nat × Bool) → List (List Nat)
  | _, [] => []
  | i, r :: rs =>
    (ascii "Edit " ++ natDigits (i + 1) ++ ascii ": " ++ r.1) :: labelEdits (i + 1) rs

theorem hasSub_false_of_not_sub (m h : List Nat) (hn : ¬ m <:+: h) : hasSub m h = false := by
  rw [← Bool.not_eq_true, hasSub_iff]
  exact hn

/-- Executor returning empty output and exit code 1 for every command. -/
def execEmptyFail : Exec Unit := fun _ _ => (⟨[], 1⟩, ())

/-- Executor that succeeds with exit code 0 and non-empty output whose text
happens to contain the not-found marker. -/
def execAmbiguous : Exec Unit := fun _ _ => (⟨ascii "No such file or directory", 0⟩, ())

/-- C10: whenever the read command's output is empty, `read_file` returns
that empty output with no error flag, regardless of the exit code — a
failing command with no output is reported as a successful read of empty
text (and the empty output trivially contains no not-found marker). -/
theorem read_file_empty_output_success {σ : Type} (exec : Exec σ) (s : σ)
    (file_path : List Nat) (offset limit : Option Nat)
    (h : (exec s (readCmdOf file_path offset limit)).1.out = []) :
    read_file exec s file_path offset limit =
      (([], false), (exec s (readCmdOf file_path offset limit)).2) := by
  rw [read_file]
  simp only [h]
  rw [if_neg (by rw [show hasSub (ascii "No such file or directory") [] = false from rfl,
    show hasSub (ascii "cannot open") [] = false from rfl]; simp)]
  rw [if_neg (by simp)]

/-- Witness for C10 at a concrete executor whose commands fail with exit
code 1 and empty output. -/
theorem read_file_empty_output_success_witness :
    (execEmptyFail () (readCmdOf (ascii "f") none none)).1.out = [] ∧
    (execEmptyFail () (readCmdOf (ascii "f") none none)).1.code = 1 ∧
    read_file execEmptyFail () (ascii "f") none none = (([], false), ()) :=
  ⟨rfl, rfl, read_file_empty_output_success execEmptyFail () (ascii "f") none none rfl⟩

/-- Counterexample to C5 as stated: a command that legitimately succeeds
with exit code 0 and non-empty output is still classified as an error when
that output contains the not-found marker text, because the marker check
runs first. -/
theorem read_file_marker_overrides_success :
    (execAmbiguous () (readCmdOf (ascii "f") none none)).1.code = 0 ∧
    (execAmbiguous () (readCmdOf (ascii "f") none none)).1.out ≠ [] ∧
    (read_file execAmbiguous () (ascii "f") none none).1.2 = true := by
  refine ⟨rfl, by decide, by decide⟩

/-- C5 (amended): a read whose command exits 0 with non-empty output that
does not contain either not-found marker is returned verbatim with no error
flag. -/
theorem read_file_clean_success_no_error {σ : Type} (exec : Exec σ) (s : σ)
    (file_path : List Nat) (offset limit : Option Nat)
    (hcode : (exec s (readCmdOf file_path offset limit)).1.code = 0)
    (_hne : (exec s (readCmdOf file_path offset limit)).1.out ≠ [])
    (hm1 : ¬ (ascii "No such file or directory") <:+:
      (exec s (readCmdOf file_path offset limit)).1.out)
    (hm2 : ¬ (ascii "cannot open") <:+: (exec s (readCmdOf file_path offset limit)).1.out) :
    read_file exec s file_path offset limit =
      (((exec s (readCmdOf file_path offset limit)).1.out, false),
        (exec s (readCmdOf file_path offset limit)).2) := by
  rw [read_file]
  rw [if_neg (by rw [hasSub_false_of_not_sub _ _ hm1, hasSub_false_of_not_sub _ _ hm2]; simp)]
  rw [if_neg (by rw [hcode]; simp)]

/-- Executor that succeeds with exit code 0 and the fixed output "ok". -/
def execCleanOk : Exec Unit := fun _ _ => (⟨ascii "ok", 0⟩, ())

/-- Witness for the amended C5 at a concrete successful executor. -/
theorem read_file_clean_success_no_error_witness :
    ((execCleanOk () (readCmdOf (ascii "f") none none)).1.code = 0 ∧
      (execCleanOk () (readCmdOf (ascii "f") none none)).1.out ≠ []) ∧
    read_file execCleanOk () (ascii "f") none none = ((ascii "ok", false), ()) :=
  ⟨⟨rfl, by decide⟩,
    read_file_clean_success_no_error execCleanOk () (ascii "f") none none rfl (by decide)
      (by rw [← hasSub_iff]; decide) (by rw [← hasSub_iff]; decide)⟩

/-- Replace the result an executor reports for mkdir commands by an
arbitrary function of the state, keeping every state transition intact. -/
def overrideMkdir {σ : Type} (exec : Exec σ) (f : σ → CmdResult) : Exec σ :=
  fun s c =>
    match c with
    | Cmd.mkdir d => (f s, (exec s (Cmd.mkdir d)).2)
    | c => exec s c

/-- State after the optional directory-creation step of `write_file`. -/
def postMkdirState {σ : Type} (exec : Exec σ) (s : σ) (file_path : List Nat) : σ :=
  if (dirname file_path).isEmpty then s else (exec s (Cmd.mkdir (dirname file_path))).2

/-- C9: the (message, isError) pair of `write_file` is determined solely by
the write command's result — error carrying the raw output exactly when its
exit code is nonzero, success message naming the path otherwise — and the
result reported by the preceding recursive directory-creation step never
affects the outcome. -/
theorem write_file_result_spec {σ : Type} (exec : Exec σ) (f : σ → CmdResult) (s : σ)
    (file_path content : List Nat) :
    (write_file (overrideMkdir exec f) s file_path content
      = write_file exec s file_path content) ∧
    ((write_file exec s file_path content).1.2 = true ↔
      (exec (postMkdirState exec s file_path)
        (Cmd.writeB64 file_path (b64encode content))).1.code ≠ 0) ∧
    ((write_file exec s file_path content).1.1 =
      if (exec (postMkdirState exec s file_path)
          (Cmd.writeB64 file_path (b64encode content))).1.code ≠ 0
      then ascii "Error writing file: " ++
        (exec (postMkdirState exec s file_path)
          (Cmd.writeB64 file_path (b64encode content))).1.out
      else ascii "Successfully wrote to " ++ file_path) ∧
    ((write_file exec s file_path content).2 =
      (exec (postMkdirState exec s file_path)
        (Cmd.writeB64 file_path (b64encode content))).2) := by
  have he : write_file exec s file_path content =
      (if (exec (postMkdirState exec s file_path)
            (Cmd.writeB64 file_path (b64encode content))).1.code != 0 then
        ((ascii "Error writing file: " ++
          (exec (postMkdirState exec s file_path)
            (Cmd.writeB64 file_path (b64encode content))).1.out, true),
         (exec (postMkdirState exec s file_path)
            (Cmd.writeB64 file_path (b64encode content))).2)
      else
        ((ascii "Successfully wrote to " ++ file_path, false),
         (exec (postMkdirState exec s file_path)
            (Cmd.writeB64 file_path (b64encode content))).2)) := rfl
  refine ⟨rfl, ?_, ?_, ?_⟩ <;> rw [he] <;>
    by_cases hcode : (exec (postMkdirState exec s file_path)
      (Cmd.writeB64 file_path (b64encode content))).1.code = 0 <;>
    simp [hcode]

/-- C3: when the probe/backup copy fails (not-found marker in its output or
nonzero exit code), `edit_file` aborts with the not-found error having
issued exactly the one probe command — in particular no substitution
command — and under the filesystem semantics the probe command never
changes the target file's content. -/
theorem edit_file_probe_failure_no_mutation {σ : Type} (exec : Exec σ) (s : σ)
    (file_path old_string new_string : List Nat) (replace_all : Bool)
    (hfail : (ascii "No such file or directory") <:+: (exec s (Cmd.cpBak file_path)).1.out
      ∨ (exec s (Cmd.cpBak file_path)).1.code ≠ 0) :
    (edit_file (traceExec exec) (s, []) file_path old_string new_string replace_all
      = ((ascii "File not found: " ++ file_path, true),
          ((exec s (Cmd.cpBak file_path)).2, [Cmd.cpBak file_path]))) ∧
    (∀ (fs : FS) (p : List Nat),
      fsGet ((shellExec fs (Cmd.cpBak p)).2) p = fsGet fs p) := by
  constructor
  · rw [edit_file]
    dsimp only [traceExec]
    rw [if_pos ?hc]
    case hc =>
      rcases hfail with hm | hc
      · rw [(hasSub_iff _ _).mpr hm]
        simp
      · rw [bne_iff_ne.mpr hc]
        simp
    simp
  · intro fs p
    have hne : p ++ ascii ".bak" ≠ p := by
      intro he
      have := congrArg List.length he
      simp [ascii] at this
    rw [show shellExec fs (Cmd.cpBak p) =
      (match fsGet fs p with
       | some bs => (⟨[], 0⟩, fsSet fs (p ++ ascii ".bak") bs)
       | none => (⟨ascii "cp: cannot stat " ++ p ++ ascii ": No such file or directory", 1⟩,
          fs)) from rfl]
    cases hg : fsGet fs p with
    | some bs =>
      simp only
      rw [fsGet_fsSet_ne _ _ _ _ hne, hg]
    | none =>
      simp only
      exact hg

/-- Witness for C3: probe failure through an executor whose commands exit
with code 1, and the probe's harmlessness on an empty filesystem. -/
theorem edit_file_probe_failure_no_mutation_witness :
    ((execEmptyFail () (Cmd.cpBak (ascii "f"))).1.code ≠ 0) ∧
    (edit_file (traceExec execEmptyFail) ((), []) (ascii "f") (ascii "a") (ascii "b") false
      = ((ascii "File not found: " ++ ascii "f", true), ((), [Cmd.cpBak (ascii "f")]))) ∧
    fsGet ((shellExec [] (Cmd.cpBak (ascii "f"))).2) (ascii "f") = fsGet [] (ascii "f") :=
  ⟨by decide,
    (edit_file_probe_failure_no_mutation execEmptyFail () (ascii "f") (ascii "a") (ascii "b")
      false (Or.inr (by decide))).1,
    (edit_file_probe_failure_no_mutation execEmptyFail () (ascii "f") (ascii "a") (ascii "b")
      false (Or.inr (by decide))).2 [] (ascii "f")⟩

/-- C4: the escaping `edit_file` applies to both `old_string` and
`new_string` replaces, in the fixed sequence backslash, `/`, `.`, `*`, `[`,
`]`, `^`, `$`, `&`, each special byte by its backslash-escaped form
(equivalently it maps each special byte b to the pair backslash-b and keeps
all other bytes); the escaped string denotes exactly the original string as
a literal under the sed pattern/replacement syntax; and the substitution
command `edit_file` issues carries `escape_for_sed old_string` and
`escape_for_sed new_string`. -/
theorem escape_for_sed_spec {σ : Type} :
    (∀ s : List Nat, escape_for_sed s = s.flatMap escByte) ∧
    (∀ s : List Nat, breLit (escape_for_sed s) = some s) ∧
    (∀ (exec : Exec σ) (st : σ) (file_path old_string new_string : List Nat)
        (replace_all : Bool),
      (edit_file (traceExec exec) (st, []) file_path old_string new_string replace_all).2.2 =
        if hasSub (ascii "No such file or directory") (exec st (Cmd.cpBak file_path)).1.out
            || (exec st (Cmd.cpBak file_path)).1.code != 0
        then [Cmd.cpBak file_path]
        else [Cmd.cpBak file_path, Cmd.cpBak file_path,
          Cmd.sedSub file_path (escape_for_sed old_string) (escape_for_sed new_string)
            replace_all,
          Cmd.rmBak file_path]) := by
  refine ⟨escape_for_sed_eq_bind, breLit_escape_for_sed, ?_⟩
  intro exec st file_path old_string new_string replace_all
  rw [edit_file]
  dsimp only [traceExec]
  split
  · simp
  · split <;> simp

theorem multiEditGo_result {σ : Type} (exec : Exec σ) (fp : List Nat) :
    ∀ (edits : List (List Nat × List Nat × Bool)) (s : σ) (i : Nat) (acc : List (List Nat)),
      (multiEditGo exec fp s i acc edits).1 =
        match List.findIdx? fatalEdit (editSeq exec fp s edits) with
        | some k =>
          (ascii "Error on edit " ++ natDigits (i + k + 1) ++ ascii ": " ++
            ((editSeq exec fp s edits).getD k ([], false)).1, true)
        | none => (joinWith [10] (acc ++ labelEdits i (editSeq exec fp s edits)), false) := by
  intro edits
  induction edits with
  | nil =>
    intro s i acc
    simp [multiEditGo, editSeq, labelEdits]
  | cons e rest ih =>
    obtain ⟨o, n, ra⟩ := e
    intro s i acc
    rw [show editSeq exec fp s ((o, n, ra) :: rest)
      = (edit_file exec s fp o n ra).1
          :: editSeq exec fp (edit_file exec s fp o n ra).2 rest from rfl]
    rw [multiEditGo]
    rw [List.findIdx?_cons]
    by_cases hF : fatalEdit (edit_file exec s fp o n ra).1 = true
    · rw [if_pos (show ((edit_file exec s fp o n ra).1.2
        && !(hasSub (ascii "No matches found") (edit_file exec s fp o n ra).1.1)) = true
        from hF)]
      rw [if_pos hF]
      simp
    · rw [if_neg (show ¬ ((edit_file exec s fp o n ra).1.2
        && !(hasSub (ascii "No matches found") (edit_file exec s fp o n ra).1.1)) = true
        from hF)]
      rw [if_neg hF, List.findIdx?_succ, ih]
      cases ho : List.findIdx? fatalEdit
          (editSeq exec fp (edit_file exec s fp o n ra).2 rest) with
      | none =>
        simp only [ho, Option.map_none]
        rw [show labelEdits i ((edit_file exec s fp o n ra).1
            :: editSeq exec fp (edit_file exec s fp o n ra).2 rest)
          = (ascii "Edit " ++ natDigits (i + 1) ++ ascii ": " ++ (edit_file exec s fp o n ra).1.1)
              :: labelEdits (i + 1) (editSeq exec fp (edit_file exec s fp o n ra).2 rest)
          from rfl]
        simp
      | some k =>
        simp only [ho, Option.map_some]
        have hnum : i + 1 + k + 1 = i + (k + 1) + 1 := by omega
        rw [hnum]
        simp

/-- C2: `multi_edit_file` applies the edits strictly in order through the
single-edit operation; it aborts immediately with an aggregate error
labelled with the 1-based index of the first edit whose result is an error
whose message lacks the "No matches found" marker (an error carrying that
marker is tolerated and processing continues with the next edit); when no
edit is fatal it returns the newline-joined per-edit result lines with no
error flag. -/
theorem multi_edit_file_spec {σ : Type} (exec : Exec σ) (s : σ) (file_path : List Nat)
    (edits : List (List Nat × List Nat × Bool)) :
    (multi_edit_file exec s file_path edits).1 =
      match List.findIdx? fatalEdit (editSeq exec file_path s edits) with
      | some k =>
        (ascii "Error on edit " ++ natDigits (k + 1) ++ ascii ": " ++
          ((editSeq exec file_path s edits).getD k ([], false)).1, true)
      | none =>
        (joinWith [10] (labelEdits 0 (editSeq exec file_path s edits)), false) := by
  have h := multiEditGo_result exec file_path edits s 0 []
  rw [multi_edit_file, h]
  cases List.findIdx? fatalEdit (editSeq exec file_path s edits) <;> simp

theorem metaGo_trace {σ : Type} (exec : Exec σ) :
    ∀ (ps : List (List Nat)) (s : σ) (acc : List Cmd),
      (metaGo (traceExec exec) (s, acc) ps).1 = (metaGo exec s ps).1 ∧
      (metaGo (traceExec exec) (s, acc) ps).2.2 = acc ++ ps.map Cmd.statCmd := by
  intro ps
  induction ps with
  | nil =>
    intro s acc
    exact ⟨rfl, by simp [metaGo]⟩
  | cons p ps ih =>
    intro s acc
    rw [metaGo, metaGo]
    dsimp only [traceExec]
    obtain ⟨h1, h2⟩ := ih (exec s (Cmd.statCmd p)).2 (acc ++ [Cmd.statCmd p])
    constructor
    · rw [h1]
    · rw [h2]
      simp

/-- C7: `get_metadata` issues one stat command for exactly the first
min(10, length) paths — excess paths are silently ignored — never sets the
error flag, and returns the double-newline-joined per-path report blocks
for those first paths. -/
theorem get_metadata_spec {σ : Type} (exec : Exec σ) (s : σ)
    (file_paths : List (List Nat)) :
    ((get_metadata exec s file_paths).1.2 = false) ∧
    ((get_metadata (traceExec exec) (s, []) file_paths).2.2
      = (file_paths.take 10).map Cmd.statCmd) ∧
    ((file_paths.take 10).length = min 10 file_paths.length) ∧
    ((get_metadata exec s file_paths).1.1
      = joinWith [10, 10] (metaGo exec s (file_paths.take 10)).1) := by
  refine ⟨rfl, ?_, List.length_take 10 file_paths, rfl⟩
  rw [get_metadata]
  exact (metaGo_trace exec (file_paths.take 10) s []).2

/-- C8: in `get_metadata`, any per-path output is split into at most five
whitespace-delimited fields; when the output lacks the not_found sentinel
and fewer than five fields result, that path's block reports that metadata
could not be obtained, and the remaining paths in the batch are still
processed and reported. -/
theorem get_metadata_short_fields {σ : Type} (exec : Exec σ) (s : σ)
    (p : List Nat) (ps : List (List Nat))
    (hsent : ¬ (ascii "not_found") <:+: (exec s (Cmd.statCmd p)).1.out)
    (hshort : (splitWSMax 4 (stripWS (exec s (Cmd.statCmd p)).1.out)).length < 5) :
    (∀ bs : List Nat, (splitWSMax 4 bs).length ≤ 5) ∧
    (get_metadata exec s (p :: ps)).1.1 =
      joinWith [10, 10] ((p ++ ascii ": Unable to get metadata")
        :: (metaGo exec (exec s (Cmd.statCmd p)).2 (ps.take 9)).1) := by
  refine ⟨fun bs => splitWSMax_length 4 bs, ?_⟩
  rw [get_metadata]
  rw [show (p :: ps).take 10 = p :: ps.take 9 from rfl]
  rw [metaGo]
  dsimp only
  rw [hasSub_false_of_not_sub _ _ hsent]
  rw [if_neg (by simp)]
  rw [if_neg (by omega)]

/-- Executor whose stat output has only two whitespace-delimited fields. -/
def execShortStat : Exec Unit := fun _ _ => (⟨ascii "1 2", 0⟩, ())

/-- Witness for C8 at a concrete executor returning a two-field output. -/
theorem get_metadata_short_fields_witness :
    (¬ (ascii "not_found") <:+: (execShortStat () (Cmd.statCmd (ascii "f"))).1.out) ∧
    ((splitWSMax 4 (stripWS (execShortStat () (Cmd.statCmd (ascii "f"))).1.out)).length < 5) ∧
    ((∀ bs : List Nat, (splitWSMax 4 bs).length ≤ 5) ∧
      (get_metadata execShortStat () [ascii "f"]).1.1 =
        joinWith [10, 10] ((ascii "f" ++ ascii ": Unable to get metadata")
          :: (metaGo execShortStat (execShortStat () (Cmd.statCmd (ascii "f"))).2
              (([] : List (List Nat)).take 9)).1)) :=
  ⟨by decide, by decide,
    get_metadata_short_fields execShortStat () (ascii "f") [] (by decide) (by decide)⟩

theorem fileLines_no10_mem : ∀ bs, ∀ l ∈ fileLines bs, 10 ∉ l := by
  have key : ∀ f bs, bs.length ≤ f → ∀ l ∈ fileLines bs, 10 ∉ l := by
    intro f
    induction f with
    | zero =>
      intro bs h
      have hbs : bs = [] := List.length_eq_zero.mp (Nat.le_zero.mp h)
      subst hbs
      simp [fileLines_nil]
    | succ f ih =>
      intro bs hlen l hl
      by_cases hbs : bs = []
      · subst hbs
        simp [fileLines_nil] at hl
      rw [fileLines_cons bs hbs] at hl
      rcases List.mem_cons.mp hl with h | h
      · subst h
        exact not_mem_firstLineNoNL bs
      · exact ih (dropAfterFirstNL bs)
          (by have := length_dropAfterFirstNL_lt bs hbs; omega) l h
  exact fun bs => key bs.length bs le_rfl

set_option maxRecDepth 100000 in
/-- Counterexample to C6 as stated: on a file one of whose lines in the
selected [offset, offset+limit) window contains the not-found marker text,
read with positive offset and limit reports a not-found error instead of
returning the numbered lines, because `read_file` classifies the numbered
pipeline output by its text first. -/
theorem read_file_range_marker_ce :
    (read_file shellExec
      [(ascii "f", ascii "No such file or directory\nsecond line\n")]
      (ascii "f") (some 1) (some 1)).1
      = (ascii "File not found: " ++ ascii "f", true) := by
  decide

/-- C6 (amended): a read with both positive offset and limit, implemented
through `tail`, `head` and `nl`, succeeds and returns exactly the file's
lines in the half-open range [offset, offset+limit), numbered starting at
offset, provided the selected lines do not contain the not-found marker
substrings checked by `read_file`. -/
theorem read_file_range_spec (fs : FS) (file_path C : List Nat) (o l : Nat)
    (hget : fsGet fs file_path = some C)
    (_ho : 1 ≤ o)
    (hm1 : ¬ (ascii "No such file or directory") <:+:
      takeLinesBytes l (dropLinesBytes (o - 1) C))
    (hm2 : ¬ (ascii "cannot open") <:+: takeLinesBytes l (dropLinesBytes (o - 1) C)) :
    (read_file shellExec fs file_path (some o) (some l)
      = ((nlFrom o (takeLinesBytes l (dropLinesBytes (o - 1) C)), false), fs)) ∧
    (fileLines (nlFrom o (takeLinesBytes l (dropLinesBytes (o - 1) C)))
      = numberLines o (((fileLines C).drop (o - 1)).take l)) := by
  have hsh : shellExec fs (Cmd.readRange file_path o l)
      = (⟨nlFrom o (takeLinesBytes l (dropLinesBytes (o - 1) C)), 0⟩, fs) := by
    rw [show shellExec fs (Cmd.readRange file_path o l)
      = (match fsGet fs file_path with
         | some bs => ((⟨nlFrom o (takeLinesBytes l (dropLinesBytes (o - 1) bs)), 0⟩ :
            CmdResult), fs)
         | none => (⟨nlFrom o (ascii "tail: cannot open " ++ file_path ++
             ascii " for reading: No such file or directory"), 0⟩, fs)) from rfl]
    rw [hget]
  have hn1 : ¬ (ascii "No such file or directory") <:+:
      nlFrom o (takeLinesBytes l (dropLinesBytes (o - 1) C)) :=
    marker_not_sub_nlFrom _ _ o (by decide) (by decide) (by decide) hm1
  have hn2 : ¬ (ascii "cannot open") <:+:
      nlFrom o (takeLinesBytes l (dropLinesBytes (o - 1) C)) :=
    marker_not_sub_nlFrom _ _ o (by decide) (by decide) (by decide) hm2
  constructor
  · rw [read_file, show readCmdOf file_path (some o) (some l)
      = Cmd.readRange file_path o l from rfl, hsh]
    dsimp only
    rw [hasSub_false_of_not_sub _ _ hn1, hasSub_false_of_not_sub _ _ hn2]
    rw [if_neg (by simp)]
    rw [if_neg (by simp)]
  · rw [fileLines_nlFrom _ _ (fileLines_no10_mem _), fileLines_takeLinesBytes,
      fileLines_dropLinesBytes]

/-- Twenty-line file used as the concrete range-read witness. -/
def content20 : List Nat :=
  joinWith [10] ((List.range 20).map (fun i => ascii "line" ++ natDigits (i + 1))) ++ [10]

set_option maxRecDepth 100000 in
/-- Witness for the amended C6: on a 20-line file, read with offset 5 and
limit 3 returns exactly lines 5, 6 and 7, numbered 5, 6, 7. -/
theorem read_file_range_spec_witness :
    (fsGet [(ascii "f", content20)] (ascii "f") = some content20 ∧
      1 ≤ 5 ∧
      ¬ (ascii "No such file or directory") <:+:
        takeLinesBytes 3 (dropLinesBytes (5 - 1) content20) ∧
      ¬ (ascii "cannot open") <:+: takeLinesBytes 3 (dropLinesBytes (5 - 1) content20) ∧
      ((fileLines content20).drop (5 - 1)).take 3
        = [ascii "line5", ascii "line6", ascii "line7"]) ∧
    ((read_file shellExec [(ascii "f", content20)] (ascii "f") (some 5) (some 3)
      = ((nlFrom 5 (takeLinesBytes 3 (dropLinesBytes (5 - 1) content20)), false),
          [(ascii "f", content20)])) ∧
      (fileLines (nlFrom 5 (takeLinesBytes 3 (dropLinesBytes (5 - 1) content20)))
        = numberLines 5 (((fileLines content20).drop (5 - 1)).take 3))) :=
  ⟨⟨by decide, by decide, by decide, by decide, by decide⟩,
    read_file_range_spec [(ascii "f", content20)] (ascii "f") content20 5 3
      (by decide) (by decide) (by decide) (by decide)⟩

set_option maxRecDepth 100000 in
/-- Counterexample to C1 as stated: content consisting of the not-found
marker text round-trips into a read that reports a not-found error rather
than the content in numbered form, because `read_file` classifies by output
text first. -/
theorem write_read_roundtrip_ce :
    (read_file shellExec
      (write_file shellExec [] (ascii "f") (ascii "No such file or directory")).2
      (ascii "f") none none).1
      = (ascii "File not found: " ++ ascii "f", true) := by
  decide

/-- C1 (amended): for every byte content C whose text does not contain the
not-found marker substrings checked by `read_file` ("No such file or
directory", "cannot open"), write(path, C) succeeds and a subsequent
read(path) with no offset and limit returns exactly C in the added 1-based
line-numbering format — the content having been carried through the base64
encode on the caller side and the base64 decode into the file on the remote
side — and stripping the numbering recovers C byte for byte. -/
theorem write_read_roundtrip (fs : FS) (file_path C : List Nat)
    (hbytes : ∀ b ∈ C, b < 256)
    (hm1 : ¬ (ascii "No such file or directory") <:+: C)
    (hm2 : ¬ (ascii "cannot open") <:+: C) :
    ((write_file shellExec fs file_path C).1
      = (ascii "Successfully wrote to " ++ file_path, false)) ∧
    ((write_file shellExec fs file_path C).2 = fsSet fs file_path C) ∧
    (read_file shellExec (write_file shellExec fs file_path C).2 file_path none none
      = ((nlFrom 1 C, false), (write_file shellExec fs file_path C).2)) ∧
    (stripNumbering (nlFrom 1 C) = C) := by
  have hdec := b64decode_b64encode C hbytes
  have hw : write_file shellExec fs file_path C
      = ((ascii "Successfully wrote to " ++ file_path, false), fsSet fs file_path C) := by
    rw [write_file]
    rw [show (if (dirname file_path).isEmpty then fs
        else (shellExec fs (Cmd.mkdir (dirname file_path))).2) = fs by split <;> rfl]
    rw [show shellExec fs (Cmd.writeB64 file_path (b64encode C))
      = (match b64decode (b64encode C) with
         | some bs => ((⟨[], 0⟩ : CmdResult), fsSet fs file_path bs)
         | none => (⟨ascii "base64: invalid input", 1⟩, fs)) from rfl]
    rw [hdec]
    simp
  have hn1 : ¬ (ascii "No such file or directory") <:+: nlFrom 1 C :=
    marker_not_sub_nlFrom _ _ 1 (by decide) (by decide) (by decide) hm1
  have hn2 : ¬ (ascii "cannot open") <:+: nlFrom 1 C :=
    marker_not_sub_nlFrom _ _ 1 (by decide) (by decide) (by decide) hm2
  have hr : read_file shellExec (fsSet fs file_path C) file_path none none
      = ((nlFrom 1 C, false), fsSet fs file_path C) := by
    rw [read_file, show readCmdOf file_path none none = Cmd.readFull file_path from rfl]
    rw [show shellExec (fsSet fs file_path C) (Cmd.readFull file_path)
      = (match fsGet (fsSet fs file_path C) file_path with
         | some bs => ((⟨nlFrom 1 bs, 0⟩ : CmdResult), fsSet fs file_path C)
         | none => (⟨ascii "nl: " ++ file_path ++ ascii ": No such file or directory", 1⟩,
            fsSet fs file_path C)) from rfl]
    rw [fsGet_fsSet_same]
    dsimp only
    rw [hasSub_false_of_not_sub _ _ hn1, hasSub_false_of_not_sub _ _ hn2]
    rw [if_neg (by simp)]
    rw [if_neg (by simp)]
  refine ⟨by rw [hw], by rw [hw], ?_, stripNumbering_nlFrom 1 C (fileLines_no10_mem C)⟩
  rw [hw]
  exact hr

set_option maxRecDepth 100000 in
/-- Witness for the amended C1 at concrete content containing a quote, a
dollar sign, a backslash and a newline. -/
theorem write_read_roundtrip_witness :
    ((∀ b ∈ ascii "a$b\\c \"d\"\ne", b < 256) ∧
      ¬ (ascii "No such file or directory") <:+: ascii "a$b\\c \"d\"\ne" ∧
      ¬ (ascii "cannot open") <:+: ascii "a$b\\c \"d\"\ne") ∧
    (((write_file shellExec [] (ascii "f") (ascii "a$b\\c \"d\"\ne")).1
      = (ascii "Successfully wrote to " ++ ascii "f", false)) ∧
      ((write_file shellExec [] (ascii "f") (ascii "a$b\\c \"d\"\ne")).2
        = fsSet [] (ascii "f") (ascii "a$b\\c \"d\"\ne")) ∧
      (read_file shellExec (write_file shellExec [] (ascii "f") (ascii "a$b\\c \"d\"\ne")).2
          (ascii "f") none none
        = ((nlFrom 1 (ascii "a$b\\c \"d\"\ne"), false),
            (write_file shellExec [] (ascii "f") (ascii "a$b\\c \"d\"\ne")).2)) ∧
      (stripNumbering (nlFrom 1 (ascii "a$b\\c \"d\"\ne")) = ascii "a$b\\c \"d\"\ne")) :=
  ⟨⟨by decide, by decide, by decide⟩,
    write_read_roundtrip [] (ascii "f") (ascii "a$b\\c \"d\"\ne")
      (by decide) (by decide) (by decide)⟩
